import Mathlib

/-!
Verification of the minionrt default-minion interaction-loop core.

Rust strings are modelled as `List Char` (their unicode scalar values); byte
indices of the original UTF-8 representation are recovered through `utf8Len`,
so that the byte-index arithmetic of `markdown.rs` is reproduced exactly.
Byte slicing is `Option`-valued: `none` models an out-of-bounds or
non-char-boundary slice, which panics in Rust.
-/

namespace Minion

/-- UTF-8 encoded length in bytes of one unicode scalar value. -/
def utf8Len (c : Char) : Nat :=
  if c.toNat < 0x80 then 1
  else if c.toNat < 0x800 then 2
  else if c.toNat < 0x10000 then 3
  else 4

/-- Byte length of a string, as Rust `str::len`. -/
def byteLength (s : List Char) : Nat :=
  (s.map utf8Len).sum

/-- Drop the first `n` bytes of a string; `none` when `n` is past the end or
not on a character boundary (a panicking byte index in Rust). -/
def byteDrop (n : Nat) (s : List Char) : Option (List Char) :=
  if n = 0 then some s
  else
    match s with
    | [] => none
    | c :: rest => if utf8Len c ≤ n then byteDrop (n - utf8Len c) rest else none

/-- Take the first `n` bytes of a string; `none` when `n` is past the end or
not on a character boundary. -/
def byteTake (n : Nat) (s : List Char) : Option (List Char) :=
  if n = 0 then some []
  else
    match s with
    | [] => none
    | c :: rest =>
      if utf8Len c ≤ n then (byteTake (n - utf8Len c) rest).map (fun t => c :: t) else none

/-- Model of the Rust byte-range slice `s[a..b]`: `none` exactly when the
slice would panic (inverted range, out of bounds, or mid-character index). -/
def byteSlice (s : List Char) (a b : Nat) : Option (List Char) :=
  if a ≤ b then (byteDrop a s).bind (fun r => byteTake (b - a) r) else none

/-- Rust `char::is_whitespace`: the Unicode White_Space property. -/
def rustIsWhitespace (c : Char) : Bool :=
  let n := c.toNat
  n == 0x09 || n == 0x0A || n == 0x0B || n == 0x0C || n == 0x0D || n == 0x20 ||
  n == 0x85 || n == 0xA0 || n == 0x1680 || (0x2000 ≤ n && n ≤ 0x200A) ||
  n == 0x2028 || n == 0x2029 || n == 0x202F || n == 0x205F || n == 0x3000

/-- Rust `str::trim`: remove leading and trailing whitespace. -/
def rustTrim (s : List Char) : List Char :=
  ((s.dropWhile rustIsWhitespace).reverse.dropWhile rustIsWhitespace).reverse

/-- Split a string at every occurrence of `sep`; always returns at least one
(possibly empty) segment, as Rust `str::split(sep)`. -/
def splitOnChar (sep : Char) : List Char → List (List Char)
  | [] => [[]]
  | c :: rest =>
    if c = sep then [] :: splitOnChar sep rest
    else
      match splitOnChar sep rest with
      | [] => [[c]]
      | seg :: segs => (c :: seg) :: segs

/-- Remove one trailing carriage return, as the per-line step of `str::lines`. -/
def stripTrailingCR (l : List Char) : List Char :=
  if l.getLast? = some '\r' then l.dropLast else l

/-- Apply `f` to every element except the last one. -/
def mapInit (f : α → α) : List α → List α
  | [] => []
  | [a] => [a]
  | a :: b :: rest => f a :: mapInit f (b :: rest)

/-- Rust `str::lines`: split at `\n`, strip the `\r` of every `\r\n` line
ending, and do not yield a final empty line for a trailing newline. -/
def rustLines (s : List Char) : List (List Char) :=
  if s = [] then []
  else if s.getLast? = some '\n' then
    ((splitOnChar '\n' s).dropLast).map stripTrailingCR
  else
    mapInit stripTrailingCR (splitOnChar '\n' s)

/-- Whether a single line matches the anchored regex of `markdown.rs`,
three backticks followed by anything: the line starts with three backticks. -/
def isFenceLine (l : List Char) : Bool :=
  [Char.ofNat 96, Char.ofNat 96, Char.ofNat 96].isPrefixOf l

/-- Number of matches of the multi-line regex over a string: the count of
newline-separated segments that start with three backticks. -/
def fenceCount (s : List Char) : Nat :=
  (splitOnChar '\n' s).countP isFenceLine

/-- The `start_idx` of `strip_wrapping_markdown_code_fences` before clamping:
one past the first line when it is a fence line, else 0. -/
def stripStartRaw (t : List Char) : Nat :=
  match (rustLines t).head? with
  | some first_line => if isFenceLine first_line then byteLength first_line + 1 else 0
  | none => 0

/-- The `end_idx` of `strip_wrapping_markdown_code_fences` before clamping:
the last line is removed when the fence count is odd or a leading fence was
removed, and the last line is a fence line. -/
def stripEndRaw (t : List Char) : Nat :=
  if fenceCount t % 2 = 1 ∨ stripStartRaw t ≠ 0 then
    match (rustLines t).getLast? with
    | some last_line =>
      if isFenceLine last_line then byteLength t - byteLength last_line
      else byteLength t
    | none => byteLength t
  else byteLength t

/-- `start_idx` after the clamp `start_idx.min(trimmed.len())`. -/
def stripStart (t : List Char) : Nat :=
  min (stripStartRaw t) (byteLength t)

/-- `end_idx` after the clamp `end_idx.max(start_idx)`. -/
def stripEnd (t : List Char) : Nat :=
  max (stripEndRaw t) (stripStart t)

/-- Embedding of `strip_wrapping_markdown_code_fences` (markdown.rs).
The result is `none` exactly when the final byte slice would panic. -/
def strip_wrapping_markdown_code_fences (content : List Char) : Option (List Char) :=
  let trimmed := rustTrim content
  if fenceCount trimmed = 0 then some content
  else if stripStart trimmed ≠ 0 ∨ stripEnd trimmed ≠ byteLength trimmed then
    byteSlice trimmed (stripStart trimmed) (stripEnd trimmed)
  else some content

/-- Total string version of the fence stripper, used by the interaction loop;
the default branch of `getD` is unreachable (the slice never panics). -/
def strip_str (s : String) : String :=
  ((strip_wrapping_markdown_code_fences s.toList).getD s.toList).asString

/-- The fence-stripping function prescribed by the specification, written by
following rule set 1-7 of section 4.1 literally: rule 1 counts fence lines of
the trimmed input `T`, rule 2 returns early, rules 3-4 compute start and end,
rule 5 clamps, rules 6-7 select between the original input and `T[start..end]`. -/
def spec_strip_fences (input : List Char) : List Char :=
  let T := rustTrim input
  let K := fenceCount T
  if K = 0 then input
  else
    let start1 : Nat :=
      match (rustLines T).head? with
      | some first_line => if isFenceLine first_line then byteLength first_line + 1 else 0
      | none => 0
    let end1 : Nat :=
      if K % 2 = 1 ∨ start1 ≠ 0 then
        match (rustLines T).getLast? with
        | some last_line =>
          if isFenceLine last_line then byteLength T - byteLength last_line
          else byteLength T
        | none => byteLength T
      else byteLength T
    let start2 := min start1 (byteLength T)
    let end2 := max end1 start2
    if start2 = 0 ∧ end2 = byteLength T then input
    else (byteSlice T start2 end2).getD []

/-! Prompt model (llm.rs). -/

/-- One part of a user message: `ContentItem` of llm.rs. -/
inductive ContentItem where
  | Text (text : String)
  | Image (image_base64_webp : String)
deriving DecidableEq, Repr

/-- Ordered list of user-content parts: `Content` of llm.rs. -/
structure Content where
  items : List ContentItem
deriving DecidableEq, Repr

/-- One prompt message: `PromptItem` of llm.rs. -/
inductive PromptItem where
  | User (content : Content)
  | System (text : String)
  | Assistant (text : String)
deriving DecidableEq, Repr

/-- Ordered sequence of prompt items: `Prompt` of llm.rs. -/
structure Prompt where
  items : List PromptItem
deriving DecidableEq, Repr

/-- Vec::push on the item list of a prompt. -/
def Prompt.push (p : Prompt) (item : PromptItem) : Prompt :=
  ⟨p.items ++ [item]⟩

/-- Image detail level of the rendered image-URL part (async_openai ImageDetail). -/
inductive ImageDetail where
  | Auto
  | Low
  | High
deriving DecidableEq, Repr

/-- A rendered part of a user message (async_openai content part). -/
inductive ChatPart where
  | TextPart (text : String)
  | ImageUrlPart (url : String) (detail : Option ImageDetail)
deriving DecidableEq, Repr

/-- Rendered user-message content (async_openai): plain text or a part list. -/
inductive UserMessageContent where
  | Text (text : String)
  | Parts (parts : List ChatPart)
deriving DecidableEq, Repr

/-- A rendered chat-completion request message (async_openai). -/
inductive ChatRequestMessage where
  | SystemMsg (content : String)
  | UserMsg (content : UserMessageContent)
  | AssistantMsg (content : Option String)
deriving DecidableEq, Repr

/-- The model identifiers treated as the reasoning class by llm.rs. -/
def reasoning_models : List String :=
  ["o1-mini", "o1-preview"]

/-- Rendering of one content item (ContentItem::render of llm.rs). -/
def ContentItem.render : ContentItem → ChatPart
  | .Text text => .TextPart text
  | .Image image_base64_webp =>
    .ImageUrlPart ("data:image/webp;base64," ++ image_base64_webp) (some .High)

/-- Rendering of user content (Content::render of llm.rs): always a part list. -/
def Content.render (c : Content) : UserMessageContent :=
  .Parts (c.items.map ContentItem.render)

/-- Rendering of one prompt item for a target model (PromptItem::render of llm.rs). -/
def PromptItem.render (model : String) : PromptItem → ChatRequestMessage
  | .User content => .UserMsg content.render
  | .System text =>
    if reasoning_models.contains model then .UserMsg (.Text text)
    else .SystemMsg text
  | .Assistant text => .AssistantMsg (some text)

/-- Rendering of a whole prompt, in order (Prompt::render of llm.rs). -/
def Prompt.render (model : String) (p : Prompt) : List ChatRequestMessage :=
  p.items.map (PromptItem.render model)

/-- The chat-completion request assembled by LLMClient::prompt; temperature is
a pass-through constant, modelled as a rational. -/
structure CreateChatCompletionRequest where
  model : String
  messages : List ChatRequestMessage
  temperature : Option Rat
deriving DecidableEq, Repr

/-- The pure request-building prefix of LLMClient::prompt (llm.rs). -/
def build_request (model : String) (p : Prompt) : CreateChatCompletionRequest :=
  { model := model
    messages := p.render model
    temperature := if reasoning_models.contains model then none else some 0 }

/-- Rendering of one content part as prescribed by the specification section 4.4. -/
def spec_render_part : ContentItem → ChatPart
  | .Text t => .TextPart t
  | .Image b64 => .ImageUrlPart ("data:image/webp;base64," ++ b64) (some .High)

/-- Rendering of one prompt item as prescribed by the specification section
4.4: for the reasoning class (the two o1 models) a System item becomes a user
message, otherwise a system message. -/
def spec_render_item (model : String) : PromptItem → ChatRequestMessage
  | .System text =>
    if model = "o1-mini" ∨ model = "o1-preview" then .UserMsg (.Text text)
    else .SystemMsg text
  | .User content => .UserMsg (.Parts (content.items.map spec_render_part))
  | .Assistant text => .AssistantMsg (some text)

/-! LLM errors, response extraction and the retry driver (llm.rs). -/

/-- The errors of the LLM transport. `ApiError` carries the machine-readable
code inspected by the retry driver; every non-API variant of the Rust enum is
collapsed into `OtherError` since the code only ever inspects `ApiError`. -/
inductive OpenAIError where
  | ApiError (message : String) (code : Option String)
  | OtherError (message : String)
deriving DecidableEq, Repr

/-- Errors of LLMClient::prompt. -/
inductive PromptError where
  | OpenAI (err : OpenAIError)
  | MissingCompletion
deriving DecidableEq, Repr

/-- Message of one response choice. -/
structure ChatResponseMessage where
  content : Option String
deriving DecidableEq, Repr

/-- One choice of a chat-completion response. -/
structure ChatChoice where
  message : ChatResponseMessage
deriving DecidableEq, Repr

/-- A chat-completion response. -/
structure CreateChatCompletionResponse where
  choices : List ChatChoice
deriving DecidableEq, Repr

/-- The completion-extraction suffix of LLMClient::prompt:
`response.choices[0].message.content.clone().ok_or(MissingCompletion)`.
The outer `Option` models the index panic on an empty choice list. -/
def extract_completion (response : CreateChatCompletionResponse) :
    Option (Except PromptError String) :=
  match response.choices[0]? with
  | none => none
  | some choice =>
    match choice.message.content with
    | some completion => some (.ok completion)
    | none => some (.error .MissingCompletion)

/-- LLMClient::prompt after the network call: a transport error is returned
as is, a response goes through completion extraction. -/
def prompt_result (net : Except OpenAIError CreateChatCompletionResponse) :
    Option (Except PromptError String) :=
  match net with
  | .error e => some (.error (.OpenAI e))
  | .ok response => extract_completion response

/-- The wall-clock retry budget configured in llm.rs. -/
def MAX_ELAPSED_TIME_IN_SECS : Nat := 60

/-- The retryable-error test of retry_exp (llm.rs): an API error whose
machine-readable code equals "rate_limit_exceeded". -/
def is_rate_limit_error : OpenAIError → Bool
  | .ApiError _ (some code) => code == "rate_limit_exceeded"
  | _ => false

/-- Embedding of `retry_exp` (llm.rs). `op n` is the outcome of the n-th
attempt of the fallible operation. `backoff_allows n` abstracts the
exponential-backoff policy built with `max_elapsed_time` of
`MAX_ELAPSED_TIME_IN_SECS` seconds: whether `next_backoff` still grants a
retry after attempt `n`, i.e. whether the budget has not yet elapsed.
`fuel` only forces termination; with enough fuel it never decides the result. -/
def retry_exp (op : Nat → Except OpenAIError α) (backoff_allows : Nat → Bool) :
    Nat → Nat → Except OpenAIError α
  | fuel, attempt =>
    match op attempt with
    | .ok value => .ok value
    | .error err =>
      if is_rate_limit_error err then
        if backoff_allows attempt then
          match fuel with
          | 0 => .error err
          | fuel' + 1 => retry_exp op backoff_allows fuel' (attempt + 1)
        else .error err
      else .error err

/-! History store (history.rs). -/

/-- The maximum number of recent actions kept in full. -/
def MAX_ACTIONS_TO_KEEP : Nat := 5

/-- One recorded action (history.rs `Action`). -/
structure Action where
  number : Nat
  messages : List PromptItem
  summary : String
deriving DecidableEq, Repr

/-- The history (history.rs `History`). The Rust field `prefix` is a Lean
keyword and is called `prefix_items` here. -/
structure History where
  prefix_items : List PromptItem
  actions : List Action
deriving DecidableEq, Repr

/-- History::new. -/
def History.new (prefix_items : List PromptItem) : History :=
  { prefix_items := prefix_items, actions := [] }

/-- The summary line emitted for a skipped action:
format!("Summary for action \x7b\x7d: \x7b\x7d", action.number, action.summary). -/
def summary_text (a : Action) : String :=
  "Summary for action " ++ toString a.number ++ ": " ++ a.summary

/-- History::compressed_prompt (history.rs), with the two `for` loops
embedded as left folds over push and extend. -/
def History.compressed_prompt (h : History) : Prompt :=
  let total_actions := h.actions.length
  let skip_count := total_actions - MAX_ACTIONS_TO_KEEP
  let items := h.prefix_items
  let items :=
    (h.actions.take skip_count).foldl
      (fun acc a => acc ++ [PromptItem.System (summary_text a)]) items
  let items :=
    (h.actions.drop skip_count).foldl (fun acc a => acc ++ a.messages) items
  ⟨items⟩

/-- History::append: the number is the length of `actions` at append time. -/
def History.append (h : History) (messages : List PromptItem) (summary : String) : History :=
  { h with actions := h.actions ++ [{ number := h.actions.length
                                      messages := messages
                                      summary := summary }] }

/-- A sequence of History::append calls, in order. -/
def apply_appends (h : History) (ops : List (List PromptItem × String)) : History :=
  ops.foldl (fun h op => h.append op.1 op.2) h

/-! Container gateway (container.rs). -/

/-- Errors of Container::read_file. -/
inductive ReadFileError where
  | NotFound
  | Other (message : String)
deriving DecidableEq, Repr

/-- Result of running a script in the container. -/
structure Output where
  exit_code : Int
  stdout : String
  stderr : String
deriving DecidableEq, Repr

/-- Outcome of a download-from-container request, as observed by read_file:
an HTTP-style server error carrying a status code, some other transport
error, or a tar stream. The tar stream is modelled after its parse: the
result of `entries()` and, per entry, the result of opening and reading it
to a UTF-8 string (an entry-open or decode failure carries its message). -/
inductive DownloadResult where
  | serverError (status_code : Nat) (message : String)
  | streamError (message : String)
  | tarStream (entries : Except String (List (Except String String)))

/-- A container handle for read_file: the download endpoint of the runtime
and the workspace mount point. -/
structure Container where
  download : String → DownloadResult
  workspace_dir_container : String

/-- Container::resolve_path: an absolute path is used as is, a relative one
is joined under the container workspace directory. -/
def Container.resolve_path (c : Container) (path : String) : String :=
  if path.startsWith ("/") then path
  else c.workspace_dir_container ++ "/" ++ path

/-- Embedding of Container::read_file (container.rs): a 404 server answer is
NotFound, any other download error is Other with the error message, an
unreadable archive or entry is Other, an empty archive is NotFound, and the
first entry read as UTF-8 is the result. -/
def Container.read_file (c : Container) (path : String) : Except ReadFileError String :=
  let resolved := c.resolve_path path
  match c.download resolved with
  | .serverError status_code message =>
    if status_code = 404 then .error .NotFound else .error (.Other message)
  | .streamError message => .error (.Other message)
  | .tarStream (.error message) => .error (.Other message)
  | .tarStream (.ok []) => .error .NotFound
  | .tarStream (.ok (.error message :: _)) => .error (.Other message)
  | .tarStream (.ok (.ok content :: _)) => .ok content

/-! Workspace folder name (main.rs). -/

/-- Rust `str::replace(".git", "")`: delete every leftmost non-overlapping
occurrence of ".git". -/
def replace_dot_git : List Char → List Char
  | '.' :: 'g' :: 'i' :: 't' :: rest => replace_dot_git rest
  | c :: rest => c :: replace_dot_git rest
  | [] => []

/-- Embedding of workspace_folder_name (main.rs), over the URL path: split at
every slash, take the last part (or "project"), delete ".git". -/
def workspace_folder_name (path : String) : String :=
  let parts := splitOnChar '/' path.toList
  let repo_name := parts.getLast?.getD (("project").toList)
  (replace_dot_git repo_name).asString

/-- The segment of a string after its last occurrence of `sep` (the whole
string when `sep` does not occur). -/
def lastSegOn (sep : Char) (s : List Char) : List Char :=
  (s.reverse.takeWhile (fun c => !(c == sep))).reverse

/-- The workspace name as prescribed by the specification section 6: the URL
path segment after the last slash, with one trailing ".git" stripped. -/
def spec_workspace_folder_name (path : String) : String :=
  let seg := lastSegOn '/' path.toList
  if (".git").toList.isSuffixOf seg then (seg.take (seg.length - 4)).asString
  else seg.asString

/-! Task outcome model (run.rs and agent_api). -/

/-- Failure classification of a task. -/
inductive TaskFailureReason where
  | TechnicalIssues
  | TaskIssues
  | ProblemSolving
deriving DecidableEq, Repr

/-- Payload of a completed task. -/
structure TaskComplete where
  description : String
deriving DecidableEq, Repr

/-- Payload of a failed task; an off-vocabulary reason is `none` (Unknown). -/
structure TaskFailure where
  reason : Option TaskFailureReason
  description : String
deriving DecidableEq, Repr

/-- Outcome of the whole task (run.rs TaskOutcome). -/
inductive TaskOutcome where
  | Complete (info : TaskComplete)
  | Failure (info : TaskFailure)
deriving DecidableEq, Repr

/-- Result of one invocation of the action state machine (run.rs ActionResult). -/
inductive ActionResult where
  | EndTask (outcome : TaskOutcome)
  | Continue
deriving DecidableEq, Repr

/-! Interaction loop (run.rs), with the LLM modelled as a scripted oracle:
the responses of successive LLM calls are the successive elements of a
`script` list, and an `unwrap`ped failure or an off-vocabulary protocol
answer (a Rust panic) is `none`. -/

/-- The action alphabet selected by the model (run.rs `enum Action`, named
apart from the history record `Action`). -/
inductive LoopAction where
  | Bash
  | ReadFile
  | EditFile
  | EndTask
deriving DecidableEq, Repr

/-- The resources ledger (resources.rs); the HashSet is a duplicate-free list. -/
structure Resources where
  open_files : List String
deriving DecidableEq, Repr

/-- Resources::add_file: HashSet::insert. -/
def Resources.add_file (r : Resources) (filename : String) : Resources :=
  if r.open_files.contains filename then r
  else { open_files := r.open_files ++ [filename] }

/-- The empty resources ledger (Resources::default). -/
def Resources.empty : Resources :=
  { open_files := [] }

/-- The container as seen by the interaction loop: result-level oracles for
running a script, reading a file and writing a file. -/
structure ContainerEnv where
  run_script : String → Output
  read_file : String → Except ReadFileError String
  write_file : String → String → Except String Unit

/-- One LLM call against the scripted oracle: consume the next response. -/
def llm_take (script : List String) : Option (String × List String) :=
  match script with
  | [] => none
  | response :: rest => some (response, rest)

/-- files.rs write_file: strip wrapping fences, then container write; the
`unwrap` of a write failure is a panic, hence `none`. -/
def write_file_action (env : ContainerEnv) (filepath content : String) : Option Unit :=
  match env.write_file filepath (strip_str content) with
  | .ok _ => some ()
  | .error _ => none

def APOS : String := (Char.ofNat 39).toString

def LETS_THINK : String := "Let" ++ APOS ++ "s think step by step."

def DISCUSS_FIRST : String :=
  "Plan the first step of your approach without writing any code, yet.\n" ++ LETS_THINK

def DISCUSS_BASH : String :=
  "Discuss what the output means.\nThen, plan what you want to do next without writing any code, yet.\n" ++ LETS_THINK

def DISCUSS_READ_FILE : String :=
  "Discuss the file content.\nThen, plan what you want to do next without writing any code, yet.\n" ++ LETS_THINK

def DISCUSS_EDIT_FILE : String :=
  "Discuss your edits.\nThen, plan what you want to do next without writing any code, yet.\n" ++ LETS_THINK

def DISCUSS_ACTION : String :=
  "To realize the first step of your plan, you must now choose one of the following actions:\n\n* `bash`: Execute bash code\n* `read-file`: Read the contents of a file\n* `edit-file`: Read, and optionally replace the contents of a file\n* `end-task`: End your task because it is completed, or because there is an insurmountable issue preventing you from completing it.\n\nTo write code, you must use the `edit-file` action.\nDiscuss which action you choose. " ++ LETS_THINK ++ "\n"

def SELECT_ACTION : String :=
  "Give the name of the action you chose above.\nNo prose, your message must consist solely of the action name.\nFor instance, if you chose the bash action, you would write:\n\nbash\n"

def ACTION_BASH : String :=
  "Provide the bash script you want to run.\nNo prose. Your message should only consist of bash code:\n"

def ACTION_EDIT_FILEPATH : String :=
  "Provide the path of the file you want to edit.\nNo prose. Your message should only consist of the filepath.\nFor instance, to read `foo/bar/example.txt`, write:\n\nfoo/bar/example.txt\n"

def ACTION_EDIT_DISCUSS : String :=
  "Discuss whether you want to edit the file and if so, which changes you want to make."

def ACTION_EDIT_REPLACE : String :=
  "Provide the file content with your edits applied.\nIf you do not want to edit the file, restate the current file contents.\nNo prose. Your message must list the whole updated file, because the file will be overwritten with your new content:\n"

def ACTION_EDIT_CREATE : String :=
  "Provide the new file contents.\nNo prose. Do not wrap the file contents in markdown code fences that are not part of the file contents themselves.\nYour message must only consist of the new file contents:\n"

def ACTION_EDITED : String :=
  "The edited file has been saved."

def ACTION_READ_FILEPATH : String :=
  "Provide the path of the file you want to read.\nNo prose. Your message must only consist of the filepath.\nFor instance, to read `foo/bar/example.txt`, write:\n\nfoo/bar/example.txt\n"

def ACTION_END_TASK_DISCUSS : String :=
  "You have decided to end the task.\nDiscuss whether you have completed the task or if there is an issue preventing you from completing it.\nAfterwards, you will be able to select one of the following exit statuses:\n\n* `complete`: The task is completed.\n* `failure`: The task is failed.\n\n"

def ACTION_END_TASK_SELECT : String :=
  "Give the name of the exit status you chose above.\nNo prose, your message must consist solely of the action name.\nFor instance, if you chose to mark the task as complete, you would write:\n\ncomplete\n"

def ACTION_COMPLETE_TASK_DESCRIPTION : String :=
  "Give a final summary of the task which will be displayed to the user.\n\nThe summary should discuss the task, the steps you took to complete it, and the final result. Be concise.\n"

def ACTION_FAIL_TASK_DESCRIPTION : String :=
  "Give a final summary on why the task failed. This summary will be displayed to the user.\n\nThe summary should discuss the task, the steps you took, and the reason for the failure. Finally, you can suggest possible solutions. Be concise.\n"

def ACTION_FAIL_TASK_REASON_DISCUSS : String :=
  "Please categorize the reason for task failure.\nYou will be able to select one of the following categories:\n\n* `technical-issues`: You failed to complete the task due to technical problems unrelated to the task itself\n* `task-issues`: You failed to complete the task due to a problem with the task itself, e.g. because the task was unclear or impossible to complete\n* `problem-solving`: There were no fundamental technical issues and the task was valid, but you still failed to complete the task because you did not succeed at task-specific problem-solving.\n\nDiscuss which category you choose. " ++ LETS_THINK ++ "\n"

def ACTION_FAIL_TASK_REASON_SELECT : String :=
  "Give the name of the reason category you chose above.\nNo prose, your message must consist solely of the reason category name.\n\nFor instance, if you chose the technical-issues category, you would write:\n\ntechnical-issues\n"

/-- select_action (run.rs): discuss, then demand a verbatim action name; an
off-vocabulary answer panics. The select answer itself is not appended. -/
def select_action (p : Prompt) (script : List String) :
    Option (LoopAction × Prompt × List String) := do
  let p := p.push (.System DISCUSS_ACTION)
  let (completion, script) ← llm_take script
  let p := p.push (.Assistant completion)
  let p := p.push (.System SELECT_ACTION)
  let (completion, script) ← llm_take script
  let action ←
    match completion with
    | "bash" => some LoopAction.Bash
    | "read-file" => some LoopAction.ReadFile
    | "edit-file" => some LoopAction.EditFile
    | "end-task" => some LoopAction.EndTask
    | _ => none
  pure (action, p, script)

/-- action_bash (run.rs): get a script, strip fences, run it, report output. -/
def action_bash (env : ContainerEnv) (p : Prompt) (script : List String) :
    Option (Prompt × List String) := do
  let p := p.push (.System ACTION_BASH)
  let (code, script) ← llm_take script
  let p := p.push (.Assistant code)
  let code := strip_str code
  let out := env.run_script code
  let msg :=
    "Stdout: \n```\n" ++ out.stdout ++ "\n```\nStderr: \n```\n" ++ out.stderr ++
      "\n```\nExit status: " ++ toString out.exit_code ++ "\n"
  pure (p.push (.System msg), script)

/-- action_read_file (run.rs). -/
def action_read_file (env : ContainerEnv) (p : Prompt) (resources : Resources)
    (script : List String) : Option (Prompt × Resources × List String) := do
  let p := p.push (.System ACTION_READ_FILEPATH)
  let (filepath, script) ← llm_take script
  let p := p.push (.Assistant filepath)
  match env.read_file filepath with
  | .error .NotFound =>
    pure (p.push (.System ("The file does not exist.")), resources, script)
  | .error (.Other err) =>
    pure (p.push (.System ("An error occured while reading the file: " ++ err)),
      resources, script)
  | .ok content =>
    let resources := resources.add_file filepath
    let p := p.push (.System ("The content of `" ++ filepath ++ "` is:"))
    pure (p.push (.System content), resources, script)

/-- action_edit_file (run.rs). -/
def action_edit_file (env : ContainerEnv) (p : Prompt) (resources : Resources)
    (script : List String) : Option (Prompt × Resources × List String) := do
  let p := p.push (.System ACTION_EDIT_FILEPATH)
  let (filepath, script) ← llm_take script
  let p := p.push (.Assistant filepath)
  match env.read_file filepath with
  | .error .NotFound => do
    let p := p.push (.System ("The file does not exist. It will be created."))
    let p := p.push (.System ACTION_EDIT_CREATE)
    let (contents, script) ← llm_take script
    let p := p.push (.Assistant contents)
    let resources := resources.add_file filepath
    let _ ← write_file_action env filepath contents
    pure (p.push (.System ACTION_EDITED), resources, script)
  | .error (.Other err) =>
    pure (p.push (.System ("An error occured while reading the file: " ++ err)),
      resources, script)
  | .ok content => do
    let resources := resources.add_file filepath
    let p := p.push (.System ("The content of `" ++ filepath ++ "` is:"))
    let p := p.push (.System content)
    let p := p.push (.System ACTION_EDIT_DISCUSS)
    let (completion, script) ← llm_take script
    let p := p.push (.Assistant completion)
    let p := p.push (.System ACTION_EDIT_REPLACE)
    let (contents, script) ← llm_take script
    let p := p.push (.Assistant contents)
    let _ ← write_file_action env filepath contents
    pure (p.push (.System ACTION_EDITED), resources, script)

/-- action_end_task (run.rs): the end-task sub-protocol. An off-vocabulary
complete/failure answer panics; an off-vocabulary reason folds to `none`. -/
def action_end_task (p : Prompt) (script : List String) :
    Option (ActionResult × List String) := do
  let p := p.push (.System ACTION_END_TASK_DISCUSS)
  let (completion, script) ← llm_take script
  let p := p.push (.Assistant completion)
  let p := p.push (.System ACTION_END_TASK_SELECT)
  let (completion, script) ← llm_take script
  let p := p.push (.Assistant completion)
  match completion with
  | "complete" => do
    let _p := p.push (.System ACTION_COMPLETE_TASK_DESCRIPTION)
    let (description, script) ← llm_take script
    pure (.EndTask (.Complete { description := description }), script)
  | "failure" => do
    let p := p.push (.System ACTION_FAIL_TASK_DESCRIPTION)
    let (description, script) ← llm_take script
    let p := p.push (.Assistant description)
    let p := p.push (.System ACTION_FAIL_TASK_REASON_DISCUSS)
    let (completion, script) ← llm_take script
    let p := p.push (.Assistant completion)
    let _p := p.push (.System ACTION_FAIL_TASK_REASON_SELECT)
    let (reason_str, script) ← llm_take script
    let reason :=
      match reason_str with
      | "technical-issues" => some TaskFailureReason.TechnicalIssues
      | "task-issues" => some TaskFailureReason.TaskIssues
      | "problem-solving" => some TaskFailureReason.ProblemSolving
      | _ => none
    pure (.EndTask (.Failure { reason := reason, description := description }), script)
  | _ => none

/-- summarize_action (run.rs): the prompt is extended on a clone with the
summarize request and the basic model answers; against the scripted oracle
this consumes the next response. -/
def summarize_action (p : Prompt) (action_number : Nat) (script : List String) :
    Option (String × List String) :=
  let _p := p.push (.System ("Summarize what you have done in action " ++
    toString action_number ++ "."))
  llm_take script

/-- The tail of single_action shared by the three non-terminal branches
(run.rs, after the dispatch match): follow-up discussion, END ACTION marker,
summary, and the history commit of the items added since `start_idx`. -/
def run_action_tail (history : History) (resources : Resources) (p : Prompt)
    (script : List String) (start_idx action_number : Nat) :
    Option (ActionResult × History × Resources × List String) := do
  let (completion, script) ← llm_take script
  let p := p.push (.Assistant completion)
  let p := p.push (.System ("END ACTION " ++ toString action_number))
  let (summary, script) ← summarize_action p action_number script
  let history := history.append (p.items.drop start_idx) summary
  pure (.Continue, history, resources, script)

/-- Embedding of single_action (run.rs). -/
def single_action (env : ContainerEnv) (history : History) (resources : Resources)
    (script : List String) : Option (ActionResult × History × Resources × List String) := do
  let p := history.compressed_prompt
  let action_number := history.actions.length
  let start_idx := p.items.length
  let p := p.push (.System ("BEGIN ACTION " ++ toString action_number))
  let (p, script) ←
    if action_number = 0 then do
      let p := p.push (.System DISCUSS_FIRST)
      let (completion, script) ← llm_take script
      pure (p.push (.Assistant completion), script)
    else pure (p, script)
  let (action, p, script) ← select_action p script
  match action with
  | .Bash => do
    let (p, script) ← action_bash env p script
    let p := p.push (.System DISCUSS_BASH)
    run_action_tail history resources p script start_idx action_number
  | .ReadFile => do
    let (p, resources, script) ← action_read_file env p resources script
    let p := p.push (.System DISCUSS_READ_FILE)
    run_action_tail history resources p script start_idx action_number
  | .EditFile => do
    let (p, resources, script) ← action_edit_file env p resources script
    let p := p.push (.System DISCUSS_EDIT_FILE)
    run_action_tail history resources p script start_idx action_number
  | .EndTask => do
    let (result, script) ← action_end_task p script
    pure (result, history, resources, script)

/-- The index in the script of the response to the SELECT_ACTION request:
the first action additionally consumes the DISCUSS_FIRST response. -/
def select_token_index (history : History) : Nat :=
  if history.actions.length = 0 then 2 else 1

/-- Embedding of the task driver loop of run (run.rs), with fuel for
termination; the second component counts the single_action invocations. -/
def run_loop (env : ContainerEnv) :
    Nat → History → Resources → List String → Option (TaskOutcome × Nat)
  | 0, _, _, _ => none
  | fuel + 1, history, resources, script =>
    match single_action env history resources script with
    | none => none
    | some (.EndTask outcome, _, _, _) => some (outcome, 1)
    | some (.Continue, history, resources, script) =>
      match run_loop env fuel history resources script with
      | none => none
      | some (outcome, count) => some (outcome, count + 1)

/-! General list lemmas. -/

theorem takeWhile_all_append (p : α → Bool) (l t : List α) :
    (l ++ t).takeWhile p = if l.all p then l ++ t.takeWhile p else l.takeWhile p := by
  induction l with
  | nil => simp
  | cons a l ih =>
    by_cases ha : p a
    · by_cases hall : l.all p <;>
        simp [ha, hall, ih, List.takeWhile_cons, List.all_cons]
    · simp [ha, List.takeWhile_cons, List.all_cons]

theorem takeWhile_eq_self_of_all (p : α → Bool) (l : List α) (h : l.all p = true) :
    l.takeWhile p = l := by
  induction l with
  | nil => rfl
  | cons a l ih =>
    rw [List.all_cons] at h
    simp [List.takeWhile_cons, (Bool.and_eq_true _ _).mp h |>.1,
      ih ((Bool.and_eq_true _ _).mp h).2]

theorem splitOnChar_ne_nil (sep : Char) (s : List Char) : splitOnChar sep s ≠ [] := by
  cases s with
  | nil => simp [splitOnChar]
  | cons c rest =>
    by_cases h : c = sep
    · simp [splitOnChar, h]
    · simp only [splitOnChar, h, if_false]
      cases hs : splitOnChar sep rest <;> simp

theorem splitOnChar_length (sep : Char) (s : List Char) :
    (splitOnChar sep s).length = s.count sep + 1 := by
  induction s with
  | nil => simp [splitOnChar]
  | cons c rest ih =>
    by_cases h : c = sep
    · simp [splitOnChar, h, List.count_cons, ih]
    · cases hs : splitOnChar sep rest with
      | nil => exact absurd hs (splitOnChar_ne_nil sep rest)
      | cons seg segs =>
        rw [hs] at ih
        simp only [List.length_cons] at ih
        simp [splitOnChar, h, hs, List.count_cons, ih]

theorem splitOnChar_head? (sep : Char) (s : List Char) :
    (splitOnChar sep s).head? = some (s.takeWhile (fun c => !(c == sep))) := by
  induction s with
  | nil => simp [splitOnChar]
  | cons c rest ih =>
    by_cases h : c = sep
    · simp [splitOnChar, h, List.takeWhile_cons]
    · cases hs : splitOnChar sep rest with
      | nil => exact absurd hs (splitOnChar_ne_nil sep rest)
      | cons seg segs =>
        rw [hs] at ih
        simp only [List.head?_cons, Option.some.injEq] at ih
        simp [splitOnChar, h, hs, List.takeWhile_cons, ih]

theorem all_ne_of_not_mem (sep : Char) (l : List Char) (h : sep ∉ l) :
    l.all (fun c => !(c == sep)) = true := by
  simp only [List.all_eq_true, Bool.not_eq_eq_eq_not, Bool.not_true, beq_eq_false_iff_ne]
  intro x hx
  exact fun he => h (he ▸ hx)

theorem splitOnChar_getLast? (sep : Char) (s : List Char) :
    (splitOnChar sep s).getLast? = some (lastSegOn sep s) := by
  induction s with
  | nil => simp [splitOnChar, lastSegOn]
  | cons c rest ih =>
    by_cases h : c = sep
    · cases hs : splitOnChar sep rest with
      | nil => exact absurd hs (splitOnChar_ne_nil sep rest)
      | cons seg segs =>
        rw [hs] at ih
        have hlast : lastSegOn sep (c :: rest) = lastSegOn sep rest := by
          unfold lastSegOn
          rw [show (c :: rest).reverse = rest.reverse ++ [c] by simp,
            takeWhile_all_append]
          by_cases hall : rest.reverse.all (fun c => !(c == sep))
          · rw [if_pos hall]
            simp [h, takeWhile_eq_self_of_all _ _ hall]
          · rw [if_neg hall]
        rw [show splitOnChar sep (c :: rest) = [] :: seg :: segs by
              simp [splitOnChar, h, hs],
          List.getLast?_cons_cons, ih, hlast]
    · cases hs : splitOnChar sep rest with
      | nil => exact absurd hs (splitOnChar_ne_nil sep rest)
      | cons seg segs =>
        have hsplit : splitOnChar sep (c :: rest) = (c :: seg) :: segs := by
          simp [splitOnChar, h, hs]
        cases segs with
        | nil =>
          have hcount : rest.count sep = 0 := by
            have := splitOnChar_length sep rest
            rw [hs] at this
            simp at this
            omega
          have hmem : sep ∉ rest := List.count_eq_zero.mp hcount
          have hseg : seg = rest := by
            have := splitOnChar_head? sep rest
            rw [hs] at this
            simp only [List.head?_cons, Option.some.injEq] at this
            rw [this, takeWhile_eq_self_of_all _ _ (all_ne_of_not_mem sep rest hmem)]
          have hall : rest.reverse.all (fun c => !(c == sep)) = true :=
            all_ne_of_not_mem sep rest.reverse (by simpa using hmem)
          rw [hsplit, hseg]
          unfold lastSegOn
          rw [show (c :: rest).reverse = rest.reverse ++ [c] by simp,
            takeWhile_all_append, if_pos hall]
          simp [h]
        | cons s2 ss =>
          have hmem : sep ∈ rest := by
            have := splitOnChar_length sep rest
            rw [hs] at this
            simp only [List.length_cons] at this
            have : 0 < rest.count sep := by omega
            exact List.count_pos_iff.mp this
          have hall : ¬ rest.reverse.all (fun c => !(c == sep)) = true := by
            simp only [List.all_eq_true, Bool.not_eq_eq_eq_not, Bool.not_true,
              beq_eq_false_iff_ne]
            intro hforall
            exact hforall sep (by simpa using hmem) rfl
          have hlast : lastSegOn sep (c :: rest) = lastSegOn sep rest := by
            unfold lastSegOn
            rw [show (c :: rest).reverse = rest.reverse ++ [c] by simp,
              takeWhile_all_append, if_neg hall]
          rw [hs] at ih
          rw [List.getLast?_cons_cons] at ih
          rw [hsplit, List.getLast?_cons_cons, hlast]
          exact ih

theorem foldl_append_flatten (l : List α) (g : α → List β) (init : List β) :
    l.foldl (fun acc a => acc ++ g a) init = init ++ (l.map g).flatten := by
  induction l generalizing init with
  | nil => simp
  | cons a l ih => simp [ih]

theorem flatten_map_singleton (l : List α) (f : α → β) :
    (l.map (fun a => [f a])).flatten = l.map f := by
  induction l with
  | nil => rfl
  | cons a l ih => simp [ih]

/-! History store lemmas (claims about history.rs). -/

theorem compressed_prompt_items (h : History) :
    (h.compressed_prompt).items =
      h.prefix_items ++
        (h.actions.take (h.actions.length - MAX_ACTIONS_TO_KEEP)).map
          (fun a => PromptItem.System (summary_text a)) ++
        ((h.actions.drop (h.actions.length - MAX_ACTIONS_TO_KEEP)).map
          (fun a => a.messages)).flatten := by
  show (h.actions.drop (h.actions.length - MAX_ACTIONS_TO_KEEP)).foldl
      (fun acc a => acc ++ a.messages)
      ((h.actions.take (h.actions.length - MAX_ACTIONS_TO_KEEP)).foldl
        (fun acc a => acc ++ [PromptItem.System (summary_text a)]) h.prefix_items) = _
  rw [foldl_append_flatten, foldl_append_flatten, flatten_map_singleton, List.append_assoc]

/-- C2: compressed_prompt returns the prefix, then one summary System item
for each of the first max(0, n-5) actions, then the full message blocks of
the last min(n, 5) actions, and its length is the corresponding sum. -/
theorem compressed_prompt_spec (h : History) :
    MAX_ACTIONS_TO_KEEP = 5 ∧
    (h.compressed_prompt).items =
      h.prefix_items ++
        (h.actions.take (h.actions.length - 5)).map
          (fun a => PromptItem.System (summary_text a)) ++
        ((h.actions.drop (h.actions.length - 5)).map (fun a => a.messages)).flatten ∧
    (h.actions.drop (h.actions.length - 5)).length = min h.actions.length 5 ∧
    (h.compressed_prompt).items.length =
      h.prefix_items.length + (h.actions.length - 5) +
        ((h.actions.drop (h.actions.length - 5)).map
          (fun a => a.messages.length)).sum := by
  have hmax : MAX_ACTIONS_TO_KEEP = 5 := rfl
  refine ⟨rfl, hmax ▸ compressed_prompt_items h, ?_, ?_⟩
  · rw [List.length_drop]
    omega
  · rw [compressed_prompt_items h, hmax]
    simp only [List.length_append, List.length_map, List.length_take,
      List.length_flatten, List.map_map, Function.comp_def]
    omega

theorem apply_appends_actions (ops : List (List PromptItem × String)) (h : History) :
    (apply_appends h ops).actions =
      h.actions ++ (ops.enumFrom h.actions.length).map
        (fun p => { number := p.1, messages := p.2.1, summary := p.2.2 }) := by
  induction ops generalizing h with
  | nil => simp [apply_appends]
  | cons op ops ih =>
    show (apply_appends (h.append op.1 op.2) ops).actions = _
    rw [ih]
    simp [History.append, List.enumFrom]

theorem apply_appends_prefix_items (ops : List (List PromptItem × String)) (h : History) :
    (apply_appends h ops).prefix_items = h.prefix_items := by
  induction ops generalizing h with
  | nil => rfl
  | cons op ops ih =>
    show (apply_appends (h.append op.1 op.2) ops).prefix_items = _
    rw [ih]
    rfl

/-- C8: after any sequence of appends on a fresh history there is exactly one
action per append, in order, with actions[i].number = i, and a single append
only adds one record at the end (it never modifies earlier ones). -/
theorem history_append_monotone (pre : List PromptItem)
    (ops : List (List PromptItem × String)) :
    (apply_appends (History.new pre) ops).actions.length = ops.length ∧
    (∀ i, (apply_appends (History.new pre) ops).actions[i]? =
      (ops[i]?).map (fun op =>
        ({ number := i, messages := op.1, summary := op.2 } : Action))) ∧
    (apply_appends (History.new pre) ops).prefix_items = pre ∧
    (∀ (h : History) (m : List PromptItem) (s : String),
      (h.append m s).actions =
        h.actions ++ [{ number := h.actions.length, messages := m, summary := s }] ∧
      (h.append m s).prefix_items = h.prefix_items) := by
  refine ⟨?_, ?_, apply_appends_prefix_items ops (History.new pre), fun h m s => ⟨rfl, rfl⟩⟩
  · rw [apply_appends_actions]
    simp [History.new]
  · intro i
    rw [apply_appends_actions]
    simp only [History.new, List.nil_append]
    rw [List.getElem?_map, List.getElem?_enumFrom]
    cases hi : ops[i]? <;> simp [hi]

/-! Prompt rendering lemmas (llm.rs). -/

theorem contains_reasoning_models (model : String) :
    reasoning_models.contains model = true ↔
      (model = "o1-mini" ∨ model = "o1-preview") := by
  simp [reasoning_models]

theorem render_item_eq_spec (model : String) (item : PromptItem) :
    PromptItem.render model item = spec_render_item model item := by
  cases item with
  | User content =>
    have hpart : ContentItem.render = spec_render_part := by
      funext ci
      cases ci <;> rfl
    simp [PromptItem.render, spec_render_item, Content.render, hpart]
  | System text =>
    by_cases h : model = "o1-mini" ∨ model = "o1-preview"
    · have hm : model ∈ reasoning_models := by
        rcases h with h | h <;> simp [reasoning_models, h]
      simp [PromptItem.render, spec_render_item, hm, h]
    · have hm : model ∉ reasoning_models := by
        simpa [reasoning_models] using h
      simp [PromptItem.render, spec_render_item, hm, h]
  | Assistant text => rfl

/-- C6: the request built by LLMClient::prompt renders the items in order per
the specification's per-model rules (System items become user messages for
the two o1 models and system messages otherwise, with the corresponding
temperature omitted or zero; parts render as text or high-detail image URLs). -/
theorem llm_render_spec (model : String) (p : Prompt) :
    (build_request model p).model = model ∧
    (build_request model p).messages = p.items.map (spec_render_item model) ∧
    (build_request model p).temperature =
      (if model = "o1-mini" ∨ model = "o1-preview" then none else some (0 : Rat)) := by
  refine ⟨rfl, ?_, ?_⟩
  · show p.items.map (PromptItem.render model) = _
    rw [funext (render_item_eq_spec model)]
  · show (if reasoning_models.contains model then none else some (0 : Rat)) = _
    by_cases h : model = "o1-mini" ∨ model = "o1-preview"
    · have hm : model ∈ reasoning_models := by
        rcases h with h | h <;> simp [reasoning_models, h]
      simp [hm, h]
    · have hm : model ∉ reasoning_models := by
        simpa [reasoning_models] using h
      simp [hm, h]

/-- C9: LLMClient::prompt returns the first choice's message content and
fails with MissingCompletion exactly when that content is absent. -/
theorem prompt_first_choice (response : CreateChatCompletionResponse)
    (choice : ChatChoice) (rest : List ChatChoice)
    (hc : response.choices = choice :: rest) :
    prompt_result (.ok response) =
      some (match choice.message.content with
        | some completion => Except.ok completion
        | none => Except.error PromptError.MissingCompletion) := by
  simp only [prompt_result, extract_completion, hc, List.getElem?_cons_zero]
  cases choice.message.content <;> rfl

/-- Witness for C9 at a concrete one-choice response with absent content. -/
theorem prompt_first_choice_witness :
    prompt_result (.ok { choices := [{ message := { content := none } }] }) =
      some (Except.error PromptError.MissingCompletion) :=
  prompt_first_choice _ { message := { content := none } } [] rfl

/-! Retry driver lemmas (llm.rs retry_exp). -/

/-- C5: an error is retried iff it is an API error with code
"rate_limit_exceeded" (other errors return immediately); when the backoff
budget (60 seconds of wall clock, abstracted by the permission oracle) is
exhausted the last error is returned. -/
theorem retry_exp_error_step (op : Nat → Except OpenAIError α) (allows : Nat → Bool)
    (fuel i : Nat) (e : OpenAIError) (hop : op i = .error e) :
    retry_exp op allows fuel i =
      if is_rate_limit_error e then
        if allows i then
          match fuel with
          | 0 => Except.error e
          | fuel' + 1 => retry_exp op allows fuel' (i + 1)
        else .error e
      else .error e := by
  rw [retry_exp, hop]

theorem retry_exp_spec :
    (∀ (α : Type) (op : Nat → Except OpenAIError α) (allows : Nat → Bool)
        (fuel i : Nat) (e : OpenAIError),
      op i = .error e → is_rate_limit_error e = false →
        retry_exp op allows fuel i = .error e) ∧
    (∀ (α : Type) (op : Nat → Except OpenAIError α) (allows : Nat → Bool)
        (fuel i : Nat) (e : OpenAIError),
      op i = .error e → is_rate_limit_error e = true → allows i = false →
        retry_exp op allows fuel i = .error e) ∧
    (∀ (α : Type) (op : Nat → Except OpenAIError α) (allows : Nat → Bool)
        (fuel i : Nat) (e : OpenAIError),
      op i = .error e → is_rate_limit_error e = true → allows i = true →
        retry_exp op allows (fuel + 1) i = retry_exp op allows fuel (i + 1)) ∧
    (∀ (α : Type) (op : Nat → Except OpenAIError α) (allows : Nat → Bool)
        (fuel i : Nat) (v : α),
      op i = .ok v → retry_exp op allows fuel i = .ok v) ∧
    (∀ e, is_rate_limit_error e = true ↔
      ∃ msg, e = .ApiError msg (some ("rate_limit_exceeded"))) ∧
    MAX_ELAPSED_TIME_IN_SECS = 60 := by
  refine ⟨?_, ?_, ?_, ?_, ?_, rfl⟩
  · intro α op allows fuel i e hop hrl
    rw [retry_exp_error_step op allows fuel i e hop, hrl]
    simp
  · intro α op allows fuel i e hop hrl hal
    rw [retry_exp_error_step op allows fuel i e hop, hrl, hal]
    simp
  · intro α op allows fuel i e hop hrl hal
    rw [retry_exp_error_step op allows (fuel + 1) i e hop, hrl, hal]
    simp
  · intro α op allows fuel i v hop
    rw [retry_exp, hop]
  · intro e
    cases e with
    | ApiError msg code =>
      cases code with
      | none => simp [is_rate_limit_error]
      | some c => simp [is_rate_limit_error]
    | OtherError msg => simp [is_rate_limit_error]

/-- Witness for C5: a rate-limited error with an exhausted budget is
returned as the last error. -/
theorem retry_exp_spec_witness :
    retry_exp
        (fun _ => (Except.error (OpenAIError.ApiError ("m")
          (some ("rate_limit_exceeded"))) : Except OpenAIError Nat))
        (fun _ => false) 7 0 =
      .error (OpenAIError.ApiError ("m") (some ("rate_limit_exceeded"))) :=
  retry_exp_spec.2.1 Nat _ (fun _ => false) 7 0 _ rfl rfl rfl

/-! Container read_file lemmas (container.rs). -/

/-- C7: read_file resolves relative paths under the workspace, returns
NotFound exactly on an HTTP 404 or an empty archive, the first entry's UTF-8
contents on success, and Other with the error's message in every other
failure case. -/
theorem read_file_spec (c : Container) (path : String) :
    (c.resolve_path path =
      if path.startsWith ("/") then path
      else c.workspace_dir_container ++ "/" ++ path) ∧
    (c.read_file path = .error .NotFound ↔
      (∃ msg, c.download (c.resolve_path path) = .serverError 404 msg) ∨
        c.download (c.resolve_path path) = .tarStream (.ok [])) ∧
    (∀ content, c.read_file path = .ok content ↔
      ∃ rest, c.download (c.resolve_path path) = .tarStream (.ok (.ok content :: rest))) ∧
    (∀ msg, c.read_file path = .error (.Other msg) ↔
      ((∃ status, status ≠ 404 ∧
          c.download (c.resolve_path path) = .serverError status msg) ∨
        c.download (c.resolve_path path) = .streamError msg ∨
        c.download (c.resolve_path path) = .tarStream (.error msg) ∨
        ∃ rest, c.download (c.resolve_path path) = .tarStream (.ok (.error msg :: rest)))) := by
  have hread : c.read_file path =
      match c.download (c.resolve_path path) with
      | .serverError status_code message =>
        if status_code = 404 then .error .NotFound else .error (.Other message)
      | .streamError message => .error (.Other message)
      | .tarStream (.error message) => .error (.Other message)
      | .tarStream (.ok []) => .error .NotFound
      | .tarStream (.ok (.error message :: _)) => .error (.Other message)
      | .tarStream (.ok (.ok content :: _)) => .ok content := rfl
  refine ⟨rfl, ?_, ?_, ?_⟩
  · rw [hread]
    cases hdl : c.download (c.resolve_path path) with
    | serverError status message =>
      by_cases hs : status = 404 <;> simp [hs, hdl]
    | streamError message => simp [hdl]
    | tarStream entries =>
      rcases entries with message | entries
      · simp [hdl]
      · rcases entries with _ | ⟨entry, rest⟩
        · simp [hdl]
        · rcases entry with message | content <;> simp [hdl]
  · intro content
    rw [hread]
    cases hdl : c.download (c.resolve_path path) with
    | serverError status message =>
      by_cases hs : status = 404 <;> simp [hs, hdl]
    | streamError message => simp [hdl]
    | tarStream entries =>
      rcases entries with message | entries
      · simp [hdl]
      · rcases entries with _ | ⟨entry, rest⟩
        · simp [hdl]
        · rcases entry with message | c0 <;> simp [hdl, eq_comm]
  · intro msg
    rw [hread]
    cases hdl : c.download (c.resolve_path path) with
    | serverError status message =>
      by_cases hs : status = 404
      · simp [hs, hdl, eq_comm]
        exact fun x hx hx4 => absurd hx4 hx
      · simp [hs, hdl, eq_comm]
        constructor
        · intro h
          exact ⟨status, hs, rfl, h⟩
        · rintro ⟨s1, hs1, hss, h⟩
          exact h
    | streamError message => simp [hdl, eq_comm]
    | tarStream entries =>
      rcases entries with message | entries
      · simp [hdl, eq_comm]
      · rcases entries with _ | ⟨entry, rest⟩
        · simp [hdl]
        · rcases entry with message | c0 <;> simp [hdl, eq_comm]

/-! Workspace folder name (main.rs). -/

/-- C4 counterexample: on the segment "my.github.repo.git" the code removes
the interior ".git" of "my.github" as well, while the spec strips only the
trailing suffix; the two disagree. -/
theorem workspace_folder_name_counterexample :
    workspace_folder_name ("/owner/my.github.repo.git") = ("myhub.repo") ∧
    spec_workspace_folder_name ("/owner/my.github.repo.git") = ("my.github.repo") ∧
    workspace_folder_name ("/owner/my.github.repo.git") ≠
      spec_workspace_folder_name ("/owner/my.github.repo.git") := by
  refine ⟨?_, ?_, ?_⟩ <;> decide

/-- C4 amended: the workspace directory name is the URL path's last segment
with every leftmost non-overlapping occurrence of ".git" removed, not only a
trailing one. -/
theorem workspace_folder_name_amended (path : String) :
    workspace_folder_name path =
      (replace_dot_git (lastSegOn '/' path.toList)).asString := by
  show (replace_dot_git
      ((splitOnChar '/' path.toList).getLast?.getD (("project").toList))).asString = _
  rw [splitOnChar_getLast? '/' path.toList]
  rfl

/-! Byte-level slicing lemmas (claims about markdown.rs). -/

theorem utf8Len_pos (c : Char) : 0 < utf8Len c := by
  unfold utf8Len
  split
  · omega
  · split
    · omega
    · split <;> omega

theorem byteLength_cons (c : Char) (s : List Char) :
    byteLength (c :: s) = utf8Len c + byteLength s := by
  simp [byteLength]

theorem byteLength_append (a b : List Char) :
    byteLength (a ++ b) = byteLength a + byteLength b := by
  simp [byteLength]

theorem byteDrop_append (p q : List Char) :
    byteDrop (byteLength p) (p ++ q) = some q := by
  induction p with
  | nil =>
    rw [byteDrop.eq_def]
    simp [byteLength]
  | cons c p ih =>
    have hpos := utf8Len_pos c
    rw [byteLength_cons, List.cons_append]
    rw [byteDrop.eq_def]
    rw [if_neg (by omega)]
    show (if utf8Len c ≤ utf8Len c + byteLength p then
      byteDrop (utf8Len c + byteLength p - utf8Len c) (p ++ q) else none) = some q
    rw [if_pos (by omega),
      show utf8Len c + byteLength p - utf8Len c = byteLength p by omega]
    exact ih

theorem byteTake_append (m q : List Char) :
    byteTake (byteLength m) (m ++ q) = some m := by
  induction m with
  | nil =>
    rw [byteTake.eq_def]
    simp [byteLength]
  | cons c m ih =>
    have hpos := utf8Len_pos c
    rw [byteLength_cons, List.cons_append]
    rw [byteTake.eq_def]
    rw [if_neg (by omega)]
    show (if utf8Len c ≤ utf8Len c + byteLength m then
      (byteTake (utf8Len c + byteLength m - utf8Len c) (m ++ q)).map (fun t => c :: t)
      else none) = some (c :: m)
    rw [if_pos (by omega),
      show utf8Len c + byteLength m - utf8Len c = byteLength m by omega, ih]
    rfl

theorem byteSlice_decomp (p m q : List Char) :
    byteSlice (p ++ m ++ q) (byteLength p) (byteLength p + byteLength m) = some m := by
  unfold byteSlice
  rw [if_pos (by omega)]
  rw [show p ++ m ++ q = p ++ (m ++ q) by simp, byteDrop_append]
  rw [show byteLength p + byteLength m - byteLength p = byteLength m by omega]
  rw [Option.bind]
  exact byteTake_append m q

/-! Lemmas about dropWhile, mapInit, rustLines, rustTrim. -/

theorem dropWhile_head?_false (p : α → Bool) (l : List α) (x : α)
    (h : (l.dropWhile p).head? = some x) : p x = false := by
  induction l with
  | nil => simp [List.dropWhile] at h
  | cons a l ih =>
    rw [List.dropWhile_cons] at h
    by_cases hp : p a
    · rw [if_pos hp] at h
      exact ih h
    · rw [if_neg hp] at h
      simp only [List.head?_cons, Option.some.injEq] at h
      subst h
      simpa using hp

theorem all_of_dropWhile_nil (p : α → Bool) (l : List α) (h : l.dropWhile p = []) :
    l.all p = true := by
  induction l with
  | nil => rfl
  | cons a l ih =>
    rw [List.dropWhile_cons] at h
    by_cases hp : p a
    · rw [if_pos hp] at h
      simp [List.all_cons, hp, ih h]
    · rw [if_neg hp] at h
      exact absurd h (by simp)

theorem head?_mapInit_single (f : α → α) (a : α) : (mapInit f [a]).head? = some a := rfl

theorem head?_mapInit_cons (f : α → α) (a b : α) (l : List α) :
    (mapInit f (a :: b :: l)).head? = some (f a) := rfl

theorem getLast?_mapInit (f : α → α) (l : List α) :
    (mapInit f l).getLast? = l.getLast? := by
  induction l with
  | nil => rfl
  | cons a l ih =>
    cases l with
    | nil => rfl
    | cons b m =>
      show (f a :: mapInit f (b :: m)).getLast? = (a :: b :: m).getLast?
      have h1 : mapInit f (b :: m) ≠ [] := by cases m <;> simp [mapInit]
      cases hx : mapInit f (b :: m) with
      | nil => exact absurd hx h1
      | cons y ys =>
        rw [List.getLast?_cons_cons, ← hx, ih, List.getLast?_cons_cons]

theorem rustLines_of_getLast (s : List Char) (h1 : s ≠ [])
    (h2 : s.getLast? ≠ some '\n') :
    rustLines s = mapInit stripTrailingCR (splitOnChar '\n' s) := by
  unfold rustLines
  rw [if_neg h1, if_neg h2]

theorem rustTrim_getLast?_not_ws (s : List Char) (c : Char)
    (h : (rustTrim s).getLast? = some c) : rustIsWhitespace c = false := by
  unfold rustTrim at h
  rw [List.getLast?_reverse] at h
  exact dropWhile_head?_false _ _ _ h

theorem rustTrim_not_nl (s : List Char) : (rustTrim s).getLast? ≠ some '\n' := by
  intro h
  have h2 := rustTrim_getLast?_not_ws s '\n' h
  have h3 : rustIsWhitespace '\n' = true := by decide
  rw [h3] at h2
  exact Bool.noConfusion h2

/-! Boundary lemmas for the fence stripper indices. -/

theorem exists_boundary_stripStart (t : List Char) (h1 : t ≠ [])
    (h2 : t.getLast? ≠ some '\n') :
    ∃ p q, t = p ++ q ∧ byteLength p = stripStart t := by
  have hsplit := List.takeWhile_append_dropWhile
    (p := fun c => !(c == '\n')) (l := t)
  have hL := rustLines_of_getLast t h1 h2
  cases hs : splitOnChar '\n' t with
  | nil => exact absurd hs (splitOnChar_ne_nil _ _)
  | cons seg0 rest =>
    have hseg0 : seg0 = t.takeWhile (fun c => !(c == '\n')) := by
      have h := splitOnChar_head? '\n' t
      rw [hs] at h
      simpa using h
    cases rest with
    | nil =>
      have hcount : t.count '\n' = 0 := by
        have h := splitOnChar_length '\n' t
        rw [hs] at h
        simp at h
        omega
      have hmem : '\n' ∉ t := List.count_eq_zero.mp hcount
      have ht : seg0 = t := by
        rw [hseg0]
        exact takeWhile_eq_self_of_all _ t (all_ne_of_not_mem '\n' t hmem)
      have hhead : (rustLines t).head? = some seg0 := by
        rw [hL, hs]
        exact head?_mapInit_single _ _
      simp only [stripStart, stripStartRaw, hhead]
      by_cases hfence : isFenceLine seg0
      · rw [if_pos hfence]
        refine ⟨t, [], by simp, ?_⟩
        rw [ht]
        omega
      · rw [if_neg hfence]
        exact ⟨[], t, by simp, by simp [byteLength]⟩
    | cons seg1 rest' =>
      have hdrop : ∃ u, t.dropWhile (fun c => !(c == '\n')) = '\n' :: u := by
        cases hd : t.dropWhile (fun c => !(c == '\n')) with
        | nil =>
          exfalso
          have hall := all_of_dropWhile_nil _ t hd
          have hlen := splitOnChar_length '\n' t
          rw [hs] at hlen
          simp only [List.length_cons] at hlen
          have hpos : 0 < t.count '\n' := by omega
          have hmem : '\n' ∈ t := List.count_pos_iff.mp hpos
          have := List.all_eq_true.mp hall '\n' hmem
          simp at this
        | cons x u =>
          have hx : (!(x == '\n')) = false :=
            dropWhile_head?_false _ t x (by rw [hd]; rfl)
          have hxe : x = '\n' := by simpa using hx
          subst hxe
          exact ⟨u, rfl⟩
      obtain ⟨u, hu⟩ := hdrop
      have hdecomp : t = seg0 ++ '\n' :: u := by
        rw [hseg0, ← hu]
        exact hsplit.symm
      have hhead : (rustLines t).head? = some (stripTrailingCR seg0) := by
        rw [hL, hs]
        exact head?_mapInit_cons _ _ _ _
      have hnl1 : byteLength ['\n'] = 1 := by decide
      have hblt : byteLength t = byteLength seg0 + 1 + byteLength u := by
        rw [hdecomp, byteLength_append,
          show ('\n' :: u) = ['\n'] ++ u by rfl, byteLength_append, hnl1]
        omega
      simp only [stripStart, stripStartRaw, hhead]
      by_cases hfence : isFenceLine (stripTrailingCR seg0)
      · rw [if_pos hfence]
        by_cases hcr : seg0.getLast? = some '\r'
        · have hsegd : seg0.dropLast ++ ['\r'] = seg0 :=
            List.dropLast_append_getLast? '\r' hcr
          have hbl : byteLength (stripTrailingCR seg0) + 1 = byteLength seg0 := by
            unfold stripTrailingCR
            rw [if_pos hcr]
            conv_rhs => rw [← hsegd]
            rw [byteLength_append]
            have : byteLength ['\r'] = 1 := by decide
            omega
          refine ⟨seg0, '\n' :: u, hdecomp, ?_⟩
          omega
        · have hsc : stripTrailingCR seg0 = seg0 := by
            unfold stripTrailingCR
            rw [if_neg hcr]
          refine ⟨seg0 ++ ['\n'], u, by rw [hdecomp]; simp, ?_⟩
          rw [hsc, byteLength_append, hnl1]
          omega
      · rw [if_neg hfence]
        exact ⟨[], t, by simp, by simp [byteLength]⟩

theorem exists_boundary_stripEndRaw (t : List Char) (h1 : t ≠ [])
    (h2 : t.getLast? ≠ some '\n') :
    ∃ p q, t = p ++ q ∧ byteLength p = stripEndRaw t := by
  have hL := rustLines_of_getLast t h1 h2
  unfold stripEndRaw
  by_cases hcond : fenceCount t % 2 = 1 ∨ stripStartRaw t ≠ 0
  · rw [if_pos hcond]
    have hlast : (rustLines t).getLast? = some (lastSegOn '\n' t) := by
      rw [hL, getLast?_mapInit, splitOnChar_getLast?]
    simp only [hlast]
    by_cases hfence : isFenceLine (lastSegOn '\n' t)
    · rw [if_pos hfence]
      have hdecomp : (t.reverse.dropWhile (fun c => !(c == '\n'))).reverse ++
          lastSegOn '\n' t = t := by
        unfold lastSegOn
        rw [← List.reverse_append, List.takeWhile_append_dropWhile, List.reverse_reverse]
      refine ⟨(t.reverse.dropWhile (fun c => !(c == '\n'))).reverse,
        lastSegOn '\n' t, hdecomp.symm, ?_⟩
      have hsum : byteLength ((t.reverse.dropWhile (fun c => !(c == '\n'))).reverse) +
          byteLength (lastSegOn '\n' t) = byteLength t := by
        rw [← byteLength_append, hdecomp]
      omega
    · rw [if_neg hfence]
      exact ⟨t, [], by simp, by simp [byteLength]⟩
  · rw [if_neg hcond]
    exact ⟨t, [], by simp, by simp [byteLength]⟩

theorem stripEndRaw_le (t : List Char) : stripEndRaw t ≤ byteLength t := by
  unfold stripEndRaw
  by_cases hcond : fenceCount t % 2 = 1 ∨ stripStartRaw t ≠ 0
  · rw [if_pos hcond]
    cases hl : (rustLines t).getLast? with
    | none => exact Nat.le_refl _
    | some ll =>
      show (if isFenceLine ll = true then byteLength t - byteLength ll
        else byteLength t) ≤ byteLength t
      split <;> omega
  · rw [if_neg hcond]

theorem strip_slice_exists (content : List Char) :
    ∃ m, byteSlice (rustTrim content) (stripStart (rustTrim content))
        (stripEnd (rustTrim content)) = some m := by
  by_cases h1 : rustTrim content = []
  · rw [h1]
    exact ⟨[], by decide⟩
  · have h2 : (rustTrim content).getLast? ≠ some '\n' := rustTrim_not_nl content
    obtain ⟨p1, q1, hd1, hb1⟩ := exists_boundary_stripStart (rustTrim content) h1 h2
    obtain ⟨p2, q2, hd2, hb2⟩ := exists_boundary_stripEndRaw (rustTrim content) h1 h2
    by_cases hle : stripEndRaw (rustTrim content) ≤ stripStart (rustTrim content)
    · have hend : stripEnd (rustTrim content) = stripStart (rustTrim content) :=
        Nat.max_eq_right hle
      refine ⟨[], ?_⟩
      rw [hend, ← hb1]
      have h := byteSlice_decomp p1 [] q1
      simp only [List.append_nil, byteLength, List.map_nil, List.sum_nil,
        Nat.add_zero] at h
      rw [hd1]
      simpa using h
    · have hlt : stripStart (rustTrim content) < stripEndRaw (rustTrim content) := by
        omega
      have hend : stripEnd (rustTrim content) = stripEndRaw (rustTrim content) :=
        Nat.max_eq_left (by omega)
      have hp1 : p1 <+: rustTrim content := ⟨q1, hd1.symm⟩
      have hp2 : p2 <+: rustTrim content := ⟨q2, hd2.symm⟩
      have hpp : p1 <+: p2 := by
        rcases List.prefix_or_prefix_of_prefix hp1 hp2 with h | h
        · exact h
        · exfalso
          obtain ⟨m, hm⟩ := h
          have : byteLength p1 = byteLength p2 + byteLength m := by
            rw [← hm, byteLength_append]
          omega
      obtain ⟨m, hm⟩ := hpp
      have hblm : byteLength p2 = byteLength p1 + byteLength m := by
        rw [← hm, byteLength_append]
      have hdt : rustTrim content = p1 ++ m ++ q2 := by
        rw [hd2, ← hm]
      refine ⟨m, ?_⟩
      rw [hend, ← hb1, ← hb2, hblm, hdt]
      exact byteSlice_decomp p1 m q2

/-- C10: the fence stripper never panics: after clamping, the slice indices
satisfy start <= end <= len(trimmed) and both fall on character boundaries,
so the byte slice is defined for every input. -/
theorem strip_fences_total (content : List Char) :
    stripStart (rustTrim content) ≤ stripEnd (rustTrim content) ∧
    stripEnd (rustTrim content) ≤ byteLength (rustTrim content) ∧
    (byteSlice (rustTrim content) (stripStart (rustTrim content))
        (stripEnd (rustTrim content))).isSome = true ∧
    (strip_wrapping_markdown_code_fences content).isSome = true := by
  obtain ⟨m, hm⟩ := strip_slice_exists content
  have hcode : strip_wrapping_markdown_code_fences content =
      if fenceCount (rustTrim content) = 0 then some content
      else if stripStart (rustTrim content) ≠ 0 ∨
          stripEnd (rustTrim content) ≠ byteLength (rustTrim content) then
        byteSlice (rustTrim content) (stripStart (rustTrim content))
          (stripEnd (rustTrim content))
      else some content := rfl
  refine ⟨Nat.le_max_right _ _, ?_, by rw [hm]; rfl, ?_⟩
  · have hr := stripEndRaw_le (rustTrim content)
    have hs : stripStart (rustTrim content) ≤ byteLength (rustTrim content) :=
      Nat.min_le_right _ _
    simp only [stripEnd]
    omega
  · rw [hcode]
    by_cases h0 : fenceCount (rustTrim content) = 0
    · rw [if_pos h0]
      rfl
    · rw [if_neg h0]
      by_cases hcond : stripStart (rustTrim content) ≠ 0 ∨
          stripEnd (rustTrim content) ≠ byteLength (rustTrim content)
      · rw [if_pos hcond, hm]
        rfl
      · rw [if_neg hcond]
        rfl

/-- C1: the fence stripper computes exactly what the specification's rule set
1-7 prescribes, and in particular returns any input whose trimmed form has no
fence line byte-identically. -/
theorem strip_fences_spec (content : List Char) :
    strip_wrapping_markdown_code_fences content = some (spec_strip_fences content) ∧
    (fenceCount (rustTrim content) = 0 →
      strip_wrapping_markdown_code_fences content = some content) := by
  have hcode : strip_wrapping_markdown_code_fences content =
      if fenceCount (rustTrim content) = 0 then some content
      else if stripStart (rustTrim content) ≠ 0 ∨
          stripEnd (rustTrim content) ≠ byteLength (rustTrim content) then
        byteSlice (rustTrim content) (stripStart (rustTrim content))
          (stripEnd (rustTrim content))
      else some content := rfl
  have hspec : spec_strip_fences content =
      if fenceCount (rustTrim content) = 0 then content
      else if stripStart (rustTrim content) = 0 ∧
          stripEnd (rustTrim content) = byteLength (rustTrim content) then content
      else (byteSlice (rustTrim content) (stripStart (rustTrim content))
          (stripEnd (rustTrim content))).getD [] := rfl
  constructor
  · rw [hcode, hspec]
    by_cases h0 : fenceCount (rustTrim content) = 0
    · rw [if_pos h0, if_pos h0]
    · rw [if_neg h0, if_neg h0]
      obtain ⟨m, hm⟩ := strip_slice_exists content
      by_cases hcond : stripStart (rustTrim content) = 0 ∧
          stripEnd (rustTrim content) = byteLength (rustTrim content)
      · rw [if_pos hcond, if_neg (by simp [hcond.1, hcond.2])]
      · have hcond' : stripStart (rustTrim content) ≠ 0 ∨
            stripEnd (rustTrim content) ≠ byteLength (rustTrim content) := by
          rcases not_and_or.mp hcond with h | h
          · exact Or.inl h
          · exact Or.inr h
        rw [if_pos hcond', if_neg hcond, hm]
        rfl
  · intro h0
    rw [hcode, if_pos h0]

/-- Witness for C1: an input without fence lines is returned unchanged. -/
theorem strip_fences_spec_witness :
    strip_wrapping_markdown_code_fences (("no fences here").toList) =
      some (("no fences here").toList) :=
  (strip_fences_spec (("no fences here").toList)).2 (by decide)

/-- Whenever the end-task sub-protocol returns at all, its result is EndTask. -/
theorem action_end_task_shape (p : Prompt) (script : List String)
    (res : ActionResult) (script' : List String)
    (h : action_end_task p script = some (res, script')) :
    ∃ o, res = ActionResult.EndTask o := by
  unfold action_end_task at h
  cases script with
  | nil => simp [llm_take] at h
  | cons a1 s1 =>
    cases s1 with
    | nil => simp [llm_take] at h
    | cons a2 s2 =>
      simp only [llm_take, Option.bind_eq_bind, Option.some_bind] at h
      split at h
      · cases s2 with
        | nil => simp at h
        | cons r3 s3 =>
          simp at h
          exact ⟨_, h.1.symm⟩
      · cases s2 with
        | nil => simp at h
        | cons r3 s3 =>
          cases s3 with
          | nil => simp at h
          | cons r4 s4 =>
            cases s4 with
            | nil => simp at h
            | cons r5 s5 =>
              simp at h
              exact ⟨_, h.1.symm⟩
      · simp at h

/-- C3: when the selected action token is end-task, single_action returns an
EndTask outcome with the history and resources exactly as before the call (no
append, no summary), and the task driver loop returns that outcome after this
single invocation, never invoking another action. -/
theorem single_action_end_task_frame
    (env : ContainerEnv) (history : History) (resources : Resources)
    (script : List String) (result : ActionResult) (history' : History)
    (resources' : Resources) (script' : List String)
    (hres : single_action env history resources script =
      some (result, history', resources', script'))
    (hsel : script.get? (select_token_index history) = some ("end-task")) :
    (∃ outcome, result = ActionResult.EndTask outcome ∧
      ∀ fuel, run_loop env (fuel + 1) history resources script =
        some (outcome, 1)) ∧
    history' = history ∧ resources' = resources := by
  have hres0 := hres
  by_cases hn : history.actions.length = 0
  · rw [select_token_index, if_pos hn] at hsel
    cases script with
    | nil => simp at hsel
    | cons s0 t0 =>
      cases t0 with
      | nil => simp at hsel
      | cons s1 t1 =>
        cases t1 with
        | nil => simp at hsel
        | cons s2 t2 =>
          simp only [List.get?] at hsel
          have hs2 : s2 = "end-task" := by simpa using hsel
          subst hs2
          unfold single_action select_action at hres
          simp [hn, llm_take] at hres
          rw [Option.bind_eq_some] at hres
          obtain ⟨val, het, hpure⟩ := hres
          obtain ⟨o, ho⟩ := action_end_task_shape _ _ val.1 val.2 het
          simp only [Option.some.injEq, Prod.mk.injEq] at hpure
          obtain ⟨hv1, hh, hr, hv2⟩ := hpure
          have hresult : result = ActionResult.EndTask o := by rw [← hv1, ho]
          subst hresult
          refine ⟨⟨o, rfl, ?_⟩, hh.symm, hr.symm⟩
          intro fuel
          simp [run_loop, hres0]
  · rw [select_token_index, if_neg hn] at hsel
    cases script with
    | nil => simp at hsel
    | cons s0 t0 =>
      cases t0 with
      | nil => simp at hsel
      | cons s1 t1 =>
        simp only [List.get?] at hsel
        have hs1 : s1 = "end-task" := by simpa using hsel
        subst hs1
        unfold single_action select_action at hres
        simp [hn, llm_take] at hres
        rw [Option.bind_eq_some] at hres
        obtain ⟨val, het, hpure⟩ := hres
        obtain ⟨o, ho⟩ := action_end_task_shape _ _ val.1 val.2 het
        simp only [Option.some.injEq, Prod.mk.injEq] at hpure
        obtain ⟨hv1, hh, hr, hv2⟩ := hpure
        have hresult : result = ActionResult.EndTask o := by rw [← hv1, ho]
        subst hresult
        refine ⟨⟨o, rfl, ?_⟩, hh.symm, hr.symm⟩
        intro fuel
        simp [run_loop, hres0]

/-- Witness for C3 at a concrete scripted end-task run. -/
theorem single_action_end_task_witness :
    (∃ outcome,
      ActionResult.EndTask (TaskOutcome.Complete { description := "done" }) =
        ActionResult.EndTask outcome ∧
      ∀ fuel, run_loop
          { run_script := fun _ => { exit_code := 0, stdout := "", stderr := "" }
            read_file := fun _ => Except.error ReadFileError.NotFound
            write_file := fun _ _ => Except.ok () }
          (fuel + 1) (History.new []) Resources.empty
          ["plan", "discuss", "end-task", "enddisc", "complete", "done"] =
        some (outcome, 1)) ∧
    History.new [] = History.new [] ∧ Resources.empty = Resources.empty :=
  single_action_end_task_frame
    { run_script := fun _ => { exit_code := 0, stdout := "", stderr := "" }
      read_file := fun _ => Except.error ReadFileError.NotFound
      write_file := fun _ _ => Except.ok () }
    (History.new []) Resources.empty
    ["plan", "discuss", "end-task", "enddisc", "complete", "done"]
    (ActionResult.EndTask (TaskOutcome.Complete { description := "done" }))
    (History.new []) Resources.empty [] (by rfl) (by rfl)

end Minion
